import Mathlib

/-!
Shallow embedding of the `llm-guard` detection/scoring engine
(`crates/llm-guard-core/src/scanner/{mod.rs, default_scanner.rs,
file_repository.rs}`).  Rust `f32` values are modelled as exact rationals
(`ℚ`); `usize` as `ℕ`; strings as Lean `String` with processing done on
their underlying character lists so everything is executable; fallible
operations return `Except`.
-/

namespace LlmGuard

/-- Decidable equality for `Except`, so concrete runs of the fallible
operations can be checked by evaluation. -/
instance exceptDecEq {ε α : Type} [DecidableEq ε] [DecidableEq α] :
    DecidableEq (Except ε α)
  | .error e, .error f =>
    if h : e = f then isTrue (by rw [h]) else isFalse (by simp [h])
  | .error _, .ok _ => isFalse (by simp)
  | .ok _, .error _ => isFalse (by simp)
  | .ok a, .ok b =>
    if h : a = b then isTrue (by rw [h]) else isFalse (by simp [h])

/-- Mirrors Rust `f32::clamp`: `if self < min { min } else if self > max { max } else { self }`. -/
def rustClamp (x lo hi : ℚ) : ℚ :=
  if x < lo then lo else if hi < x then hi else x

/-- Mirrors `RiskThresholds` from `scanner/mod.rs`. -/
structure RiskThresholds where
  medium : ℚ
  high : ℚ
  deriving DecidableEq, Repr

/-- Mirrors `RiskThresholds::default` (`medium: 25.0, high: 60.0`). -/
def defaultThresholds : RiskThresholds := ⟨25, 60⟩

/-- Mirrors the `RiskBand` enum. -/
inductive RiskBand where
  | low
  | medium
  | high
  deriving DecidableEq, Repr

/-- Mirrors `RiskBand::from_score_with_thresholds`. -/
def RiskBand.fromScoreWithThresholds (score : ℚ) (thresholds : RiskThresholds) : RiskBand :=
  if thresholds.high ≤ score then .high
  else if thresholds.medium ≤ score then .medium
  else .low

/-- Mirrors `RiskBand::from_score` (delegates to the default thresholds). -/
def RiskBand.fromScore (score : ℚ) : RiskBand :=
  RiskBand.fromScoreWithThresholds score defaultThresholds

/-- Mirrors the `RuleKind` enum. -/
inductive RuleKind where
  | keyword
  | regex
  deriving DecidableEq, Repr

/-- Mirrors the `Rule` struct. -/
structure Rule where
  id : String
  description : String
  kind : RuleKind
  pattern : String
  weight : ℚ
  window : Option Nat
  deriving DecidableEq, Repr

/-- Mirrors `RuleValidationError` from `scanner/mod.rs`. -/
inductive RuleValidationError where
  | emptyId
  | emptyPattern (rule_id : String)
  | invalidWeight (rule_id : String) (weight : ℚ)
  | invalidWindow (rule_id : String) (window : Nat)
  deriving DecidableEq, Repr

/-- Character-list whitespace trim mirroring Rust `str::trim`. -/
def trimChars (l : List Char) : List Char :=
  ((l.dropWhile Char.isWhitespace).reverse.dropWhile Char.isWhitespace).reverse

/-- String-level trim used by the rule loader and rule validation. -/
def rustTrim (s : String) : String := ⟨trimChars s.data⟩

/-- Mirrors `Rule::validate`. -/
def Rule.validate (r : Rule) : Except RuleValidationError Unit :=
  if (rustTrim r.id).data = [] then .error .emptyId
  else if r.pattern.data = [] then .error (.emptyPattern r.id)
  else if ¬(0 ≤ r.weight ∧ r.weight ≤ 100) then .error (.invalidWeight r.id r.weight)
  else match r.window with
    | some w => if w = 0 then .error (.invalidWindow r.id w) else .ok ()
    | none => .ok ()

/-- Mirrors `Rule::new`: build then validate. -/
def mkRule (id description : String) (kind : RuleKind) (pattern : String)
    (weight : ℚ) (window : Option Nat) : Except RuleValidationError Rule :=
  let r : Rule := ⟨id, description, kind, pattern, weight, window⟩
  match r.validate with
  | .error e => .error e
  | .ok _ => .ok r

/-- Findings generic in the weight type, so the `f32` comparator semantics
(including NaN) can be stated as well as the validated-rational pipeline.
Mirrors the `Finding` struct: `span` is a pair of byte offsets. -/
structure FindingW (W : Type) where
  rule_id : String
  span : Nat × Nat
  excerpt : String
  weight : W
  deriving DecidableEq, Repr

/-- Findings of the scan pipeline, whose weights come from validated rules. -/
abbrev Finding := FindingW ℚ

/-- Mirrors `FindingValidationError` from `scanner/mod.rs`. -/
inductive FindingValidationError where
  | invalidSpan (rule_id : String) (span : Nat × Nat)
  | invalidWeight (rule_id : String) (weight : ℚ)
  deriving DecidableEq, Repr

/-- Mirrors `Finding::validate`: rejects iff `span.0 > span.1` or the weight
is outside `[0, 100]`. -/
def Finding.validate (f : Finding) : Except FindingValidationError Unit :=
  if f.span.2 < f.span.1 then .error (.invalidSpan f.rule_id f.span)
  else if ¬(0 ≤ f.weight ∧ f.weight ≤ 100) then .error (.invalidWeight f.rule_id f.weight)
  else .ok ()

/-- Mirrors the `LlmVerdict` struct. -/
structure LlmVerdict where
  label : String
  rationale : String
  mitigation : String
  deriving DecidableEq, Repr

/-- Mirrors the `FamilyContribution` struct. -/
structure FamilyContribution where
  family : String
  occurrences : Nat
  raw_weight : ℚ
  adjusted_weight : ℚ
  deriving DecidableEq, Repr

/-- Mirrors the `ScoreBreakdown` struct. -/
structure ScoreBreakdown where
  raw_total : ℚ
  adjusted_total : ℚ
  length_factor : ℚ
  family_contributions : List FamilyContribution
  deriving DecidableEq, Repr

/-- Mirrors `ScoreBreakdown::risk_score`:
`(adjusted_total * length_factor).clamp(0.0, 100.0)`. -/
def ScoreBreakdown.riskScore (b : ScoreBreakdown) : ℚ :=
  rustClamp (b.adjusted_total * b.length_factor) 0 100

/-- Mirrors the `RiskConfig` struct. -/
structure RiskConfig where
  thresholds : RiskThresholds
  baseline_chars : Nat
  min_length_factor : ℚ
  max_length_factor : ℚ
  family_dampening : ℚ
  deriving DecidableEq, Repr

/-- Mirrors `RiskConfig::default`. -/
def defaultRiskConfig : RiskConfig :=
  ⟨defaultThresholds, 800, 1/2, 3/2, 1/2⟩

/-- Mirrors `RiskConfig::length_factor`: `1.0` when `baseline_chars == 0`,
otherwise `(text_len / baseline_chars).clamp(min, max)`. -/
def RiskConfig.lengthFactor (cfg : RiskConfig) (text_len : Nat) : ℚ :=
  if cfg.baseline_chars = 0 then 1
  else rustClamp ((text_len : ℚ) / (cfg.baseline_chars : ℚ))
    cfg.min_length_factor cfg.max_length_factor

/-- Mirrors the `ScanReport` struct. -/
structure ScanReport where
  risk_score : ℚ
  findings : List Finding
  normalized_len : Nat
  risk_band : RiskBand
  llm_verdict : Option LlmVerdict
  score_breakdown : ScoreBreakdown
  deriving DecidableEq, Repr

/-- Mirrors `ScanReport::new`: clamps the supplied score and derives the band
through `RiskBand::from_score` (default thresholds), ignoring any
caller-specific configuration. -/
def ScanReport.new (risk_score : ℚ) (findings : List Finding) (normalized_len : Nat)
    (llm_verdict : Option LlmVerdict) (score_breakdown : ScoreBreakdown) : ScanReport :=
  let clamped := rustClamp risk_score 0 100
  { risk_score := clamped
    findings := findings
    normalized_len := normalized_len
    risk_band := RiskBand.fromScore clamped
    llm_verdict := llm_verdict
    score_breakdown := score_breakdown }

/-- Mirrors `ScanReport::from_breakdown`: score comes from the breakdown and
the band from the caller-provided thresholds. -/
def ScanReport.fromBreakdown (findings : List Finding) (normalized_len : Nat)
    (llm_verdict : Option LlmVerdict) (breakdown : ScoreBreakdown)
    (thresholds : RiskThresholds) : ScanReport :=
  { risk_score := breakdown.riskScore
    findings := findings
    normalized_len := normalized_len
    risk_band := RiskBand.fromScoreWithThresholds breakdown.riskScore thresholds
    llm_verdict := llm_verdict
    score_breakdown := breakdown }

/-! Excerpt extraction (`default_scanner.rs`).  The scanned text is modelled
as its list of characters; byte offsets are recovered through `Char.utf8Size`,
which is exactly Rust's UTF-8 byte accounting. -/

/-- Mirrors the `DEFAULT_CONTEXT_WINDOW` constant. -/
def defaultContextWindow : Nat := 64

/-- Mirrors the `MAX_EXCERPT_CHARS` constant. -/
def maxExcerptChars : Nat := 240

/-- UTF-8 byte length of a character list; mirrors Rust `str::len`. -/
def utf8Len (l : List Char) : Nat := (l.map Char.utf8Size).sum

/-- Mirrors Rust `str::is_char_boundary` on the byte offset `i`. -/
def isBoundary (l : List Char) (i : Nat) : Bool :=
  if i = 0 then true
  else match l with
    | [] => false
    | c :: cs => if i < c.utf8Size then false else isBoundary cs (i - c.utf8Size)

/-- Loop of `saturating_char_boundary`: decrement the cursor until a boundary
(or zero) is reached. -/
def backWalk (t : List Char) : Nat → Nat
  | 0 => 0
  | n + 1 => if isBoundary t (n + 1) then n + 1 else backWalk t n

/-- Mirrors `saturating_char_boundary` (backward search). -/
def satBoundaryBack (t : List Char) (idx : Nat) : Nat :=
  if utf8Len t ≤ idx then utf8Len t
  else if isBoundary t idx then idx
  else backWalk t idx

/-- Loop of `saturating_char_boundary_forward` with explicit fuel
(`utf8Len t - cursor` in the caller): increment the cursor until a boundary
or the end of the text. -/
def fwdWalk (t : List Char) : Nat → Nat → Nat
  | 0, c => c
  | fuel + 1, c => if isBoundary t c then c else fwdWalk t fuel (c + 1)

/-- Mirrors `saturating_char_boundary_forward`. -/
def satBoundaryFwd (t : List Char) (idx : Nat) : Nat :=
  if utf8Len t ≤ idx then utf8Len t
  else if isBoundary t idx then idx
  else fwdWalk t (utf8Len t - idx) idx

/-- Drop the first `n` bytes of a character list (exact on boundary offsets);
models the start of Rust slicing `&input[start..end]`. -/
def dropBytes : List Char → Nat → List Char
  | l, 0 => l
  | [], _ + 1 => []
  | c :: cs, n + 1 => dropBytes cs (n + 1 - c.utf8Size)

/-- Take the first `n` bytes of a character list (exact on boundary offsets). -/
def takeBytes : List Char → Nat → List Char
  | _, 0 => []
  | [], _ + 1 => []
  | c :: cs, n + 1 => c :: takeBytes cs (n + 1 - c.utf8Size)

/-- Byte-offset slice `text[s..e]` of the modelled text. -/
def byteSlice (t : List Char) (s e : Nat) : List Char :=
  takeBytes (dropBytes t s) (e - s)

/-- Mirrors `extract_excerpt`: widen the span by the window on both sides,
snap to character boundaries, slice, and keep the first 240 characters. -/
def extractExcerpt (input : List Char) (span : Nat × Nat) (window : Option Nat) :
    List Char :=
  let w := window.getD defaultContextWindow
  let start := satBoundaryBack input (span.1 - w)
  let stop := satBoundaryFwd input (span.2 + w)
  (byteSlice input start stop).take maxExcerptChars

/-! The finding comparator of `DefaultScanner::scan`:
`b.weight.partial_cmp(&a.weight).unwrap_or(Equal)` then span start ascending
then `rule_id` ascending. -/

/-- Rust `Ord::cmp` on naturals. -/
def cmpNat (a b : Nat) : Ordering :=
  if a < b then .lt else if b < a then .gt else .eq

/-- Rust `Ord::cmp` on rationals (total order on non-NaN floats). -/
def cmpQ (a b : ℚ) : Ordering :=
  if a < b then .lt else if b < a then .gt else .eq

/-- Rust byte-wise `Ord::cmp` on strings.  Comparing scalar values
character-by-character coincides with UTF-8 byte order. -/
def cmpCharList : List Char → List Char → Ordering
  | [], [] => .eq
  | [], _ :: _ => .lt
  | _ :: _, [] => .gt
  | a :: as, b :: bs =>
    (if a < b then Ordering.lt else if b < a then Ordering.gt else Ordering.eq).then
      (cmpCharList as bs)

/-- String comparison used for the `rule_id` tiebreak. -/
def cmpStr (a b : String) : Ordering := cmpCharList a.data b.data

/-- Generic form of the sort comparator in `DefaultScanner::scan`,
parameterized by the weight partial comparison (so IEEE `partial_cmp`
including NaN can be instantiated). -/
def findingCmpW {W : Type} (pc : W → W → Option Ordering) (a b : FindingW W) : Ordering :=
  (((pc b.weight a.weight).getD .eq).then (cmpNat a.span.1 b.span.1)).then
    (cmpStr a.rule_id b.rule_id)

/-- The rational instantiation: `partial_cmp` never fails off NaN. -/
def pcRat (x y : ℚ) : Option Ordering := some (cmpQ x y)

/-- The comparator actually applied to pipeline findings. -/
def findingCmp (a b : Finding) : Ordering := findingCmpW pcRat a b

/-- IEEE `f32` modelled as `Option ℚ` where `none` is NaN: `partial_cmp`
returns `none` whenever either side is NaN. -/
def pcF32 : Option ℚ → Option ℚ → Option Ordering
  | some x, some y => some (cmpQ x y)
  | _, _ => none

/-! The scan pipeline (`DefaultScanner::scan`).  The two matcher libraries
(Aho-Corasick and the regex engine) are external crates; their output is a
sequence of `(rule, byte-span)` candidates, over which the engine's own code
(zero-width filtering, excerpt building, ordering, validation, scoring,
report assembly) is modelled exactly. -/

/-- Mirrors `DefaultScanner::push_finding`: drop zero-width candidates, else
append a finding carrying the rule's id and weight and an excerpt. -/
def pushFinding (findings : List Finding) (input : List Char) (rule : Rule)
    (span : Nat × Nat) : List Finding :=
  if span.2 ≤ span.1 then findings
  else findings ++ [⟨rule.id, span, ⟨extractExcerpt input span rule.window⟩, rule.weight⟩]

/-- Accumulate findings over all matcher candidates in order. -/
def buildFindings (input : List Char) (cands : List (Rule × (Nat × Nat))) : List Finding :=
  cands.foldl (fun acc rc => pushFinding acc input rc.1 rc.2) []

/-- The non-strict order induced by the comparator: `a` may precede `b`. -/
def findingLe (a b : Finding) : Prop := findingCmp a b ≠ Ordering.gt

instance : DecidableRel findingLe := fun a b => by
  unfold findingLe
  infer_instance

/-- Mirrors the `findings.sort_by(...)` call.  Rust `sort_by` is a stable
sort; the comparator is a total preorder on the rational weights, so any
stable sort (here insertion sort, which reduces in the kernel) produces the
identical output. -/
def sortFindings (l : List Finding) : List Finding :=
  l.insertionSort findingLe

/-- Mirrors the defensive re-validation loop: the first invalid finding
aborts the scan. -/
def validateAll : List Finding → Except FindingValidationError Unit
  | [] => .ok ()
  | f :: fs =>
    match f.validate with
    | .error e => .error e
    | .ok _ => validateAll fs

/-- Mirrors `split('_').next().unwrap_or(..).to_ascii_uppercase()`: the
family key is the ASCII-uppercased prefix of the rule id before the first
underscore (the whole id when none). -/
def asciiUpper (c : Char) : Char :=
  if 'a' ≤ c ∧ c ≤ 'z' then Char.ofNat (c.toNat - 32) else c

/-- Family key of a rule id. -/
def familyKey (id : String) : String :=
  ⟨(id.data.takeWhile (fun c => c ≠ '_')).map asciiUpper⟩

/-- Accumulator of `DefaultScanner::score_findings` (the `BTreeMap` is
modelled as an insertion-ordered association list with unique keys, restored
to key order before the final sort below). -/
structure ScoreAcc where
  fams : List FamilyContribution
  raw : ℚ
  adj : ℚ
  deriving Repr

/-- Update-or-insert of one finding's weight into the family map, returning
the new map together with this finding's adjusted contribution
(`weight * (family_dampening if the entry already existed else 1)`). -/
def updateFam (damp w : ℚ) (key : String) :
    List FamilyContribution → List FamilyContribution × ℚ
  | [] => ([⟨key, 1, w, w⟩], w)
  | c :: cs =>
    if c.family = key then
      let occ := c.occurrences + 1
      let mult := if 1 < occ then damp else 1
      (⟨c.family, occ, c.raw_weight + w, c.adjusted_weight + w * mult⟩ :: cs, w * mult)
    else
      let r := updateFam damp w key cs
      (c :: r.1, r.2)

/-- One iteration of the scoring loop. -/
def scoreStep (damp : ℚ) (acc : ScoreAcc) (f : Finding) : ScoreAcc :=
  let r := updateFam damp f.weight (familyKey f.rule_id) acc.fams
  ⟨r.1, acc.raw + f.weight, acc.adj + r.2⟩

/-- Comparator for the final contribution ordering: adjusted weight
descending, then raw weight descending. -/
def contribCmp (a b : FamilyContribution) : Ordering :=
  (cmpQ b.adjusted_weight a.adjusted_weight).then (cmpQ b.raw_weight a.raw_weight)

/-- Key order of `BTreeMap::into_values` iteration. -/
def contribKeyLe (a b : FamilyContribution) : Prop :=
  cmpStr a.family b.family ≠ Ordering.gt

instance : DecidableRel contribKeyLe := fun a b => by
  unfold contribKeyLe
  infer_instance

/-- The non-strict order of the contribution comparator. -/
def contribLe (a b : FamilyContribution) : Prop := contribCmp a b ≠ Ordering.gt

instance : DecidableRel contribLe := fun a b => by
  unfold contribLe
  infer_instance

/-- Restore `BTreeMap::into_values` key order (the insertion-ordered list
re-sorted by distinct family names), then apply the Rust stable `sort_by` on
contributions. -/
def sortContribs (l : List FamilyContribution) : List FamilyContribution :=
  (l.insertionSort contribKeyLe).insertionSort contribLe

/-- Mirrors `DefaultScanner::score_findings`. -/
def scoreFindings (cfg : RiskConfig) (findings : List Finding) (text_len : Nat) :
    ScoreBreakdown :=
  let acc := findings.foldl (scoreStep cfg.family_dampening) ⟨[], 0, 0⟩
  { raw_total := acc.raw
    adjusted_total := acc.adj
    length_factor := cfg.lengthFactor text_len
    family_contributions := sortContribs acc.fams }

/-- Mirrors `DefaultScanner::scan` downstream of the matcher libraries:
build findings from the candidates, sort, re-validate, score, and assemble
the report through `ScanReport::from_breakdown`. -/
def scanModel (cfg : RiskConfig) (cands : List (Rule × (Nat × Nat)))
    (input : List Char) : Except FindingValidationError ScanReport :=
  let findings := sortFindings (buildFindings input cands)
  match validateAll findings with
  | .error e => .error e
  | .ok _ =>
    let normalized_len := utf8Len input
    let breakdown := scoreFindings cfg findings normalized_len
    .ok (ScanReport.fromBreakdown findings normalized_len none breakdown cfg.thresholds)

/-! The keyword-file loader (`FileRuleRepository::load_keywords`), modelled
over the file's text content (the filesystem read itself is not part of the
parsing logic). -/

/-- Split a character list on every occurrence of `sep` (Rust
`str::split`, which yields at least one part). -/
def splitOnChar (sep : Char) : List Char → List (List Char)
  | [] => [[]]
  | c :: cs =>
    let r := splitOnChar sep cs
    if c = sep then [] :: r
    else match r with
      | [] => [[c]]
      | h :: t => (c :: h) :: t

/-- Join parts with a separator (inverse of the split beyond the limit). -/
def joinSep (sep : Char) : List (List Char) → List Char
  | [] => []
  | [x] => x
  | x :: y :: ys => x ++ sep :: joinSep sep (y :: ys)

/-- Mirrors Rust `str::splitn(4, '|')`: at most four parts, the last part
keeping any further separators unsplit. -/
def splitn4 (l : List Char) : List (List Char) :=
  let ps := splitOnChar '|' l
  if ps.length ≤ 4 then ps else ps.take 3 ++ [joinSep '|' (ps.drop 3)]

/-- Strip one trailing carriage return (for lines terminated by `\n`). -/
def stripCR (l : List Char) : List Char :=
  match l.reverse with
  | '\r' :: rest => rest.reverse
  | _ => l

/-- Mirrors Rust `str::lines`: split on `\n`, strip a `\r` preceding each
`\n`, and do not yield a final empty line for a trailing newline. -/
def rustLines (content : List Char) : List (List Char) :=
  if content = [] then []
  else
    let ps := splitOnChar '\n' content
    let front := ps.dropLast.map stripCR
    match ps.getLast? with
    | some [] => front
    | some last => front ++ [last]
    | none => front

/-- Numeric value of a digit list. -/
def natOfDigits (l : List Char) : Nat :=
  l.foldl (fun a c => a * 10 + (c.toNat - 48)) 0

/-- Decimal literal: digits with an optional fractional part (at least one
digit overall, as Rust accepts `".5"` and `"5."`). -/
def parseDec (l : List Char) : Option ℚ :=
  let intPart := l.takeWhile Char.isDigit
  let rest := l.dropWhile Char.isDigit
  match rest with
  | [] => if intPart = [] then none else some (natOfDigits intPart)
  | '.' :: frac =>
    if frac.all Char.isDigit ∧ ¬(intPart = [] ∧ frac = []) then
      some ((natOfDigits intPart : ℚ) + (natOfDigits frac : ℚ) / ((10 : ℚ) ^ frac.length))
    else none
  | _ => none

/-- Modelled from `str::parse::<f32>` for the plain decimal forms the rule
packs use: optional sign then a decimal literal (exponents and the special
values are outside the modelled grammar). -/
def parseWeight (l : List Char) : Option ℚ :=
  match l with
  | '-' :: rest => (parseDec rest).map (fun q => -q)
  | '+' :: rest => parseDec rest
  | _ => parseDec l

/-- Error taxonomy of `load_keywords`; each variant carries what the Rust
error message interpolates (the 1-based line number where applicable). -/
inductive KwError where
  | formatError (line : Nat)
  | duplicateId (id : String)
  | badWeight (line : Nat) (raw : String) (id : String)
  | ruleInvalid (e : RuleValidationError)
  deriving DecidableEq, Repr

/-- The enumerated loop body of `load_keywords`: `i` is the 0-based index of
the next line, `seen` the deduplication set, `acc` the rules so far. -/
def kwGo (i : Nat) (seen : List String) (acc : List Rule) :
    List (List Char) → Except KwError (List Rule)
  | [] => .ok acc
  | line :: rest =>
    let t := trimChars line
    if t = [] ∨ t.head? = some '#' then kwGo (i + 1) seen acc rest
    else
      let parts := (splitn4 t).map trimChars
      if parts.length ≠ 4 then .error (.formatError (i + 1))
      else
        let id : String := ⟨parts.getD 0 []⟩
        if id ∈ seen then .error (.duplicateId id)
        else
          match parseWeight (parts.getD 1 []) with
          | none => .error (.badWeight (i + 1) ⟨parts.getD 1 []⟩ id)
          | some w =>
            match mkRule id ⟨parts.getD 2 []⟩ .keyword ⟨parts.getD 3 []⟩ w none with
            | .error e => .error (.ruleInvalid e)
            | .ok r => kwGo (i + 1) (seen ++ [id]) (acc ++ [r]) rest

/-- Mirrors `load_keywords` on the file's content. -/
def loadKeywords (content : String) : Except KwError (List Rule) :=
  kwGo 0 [] [] (rustLines content.data)

/-! Theorems. -/

/-- Clamping into an ordered interval lands in the interval. -/
theorem rustClamp_bounds (x lo hi : ℚ) (h : lo ≤ hi) :
    lo ≤ rustClamp x lo hi ∧ rustClamp x lo hi ≤ hi := by
  unfold rustClamp
  split_ifs with h1 h2 <;> constructor <;> linarith

/-- C1: every report the engine produces carries
`risk_score = clamp(adjusted_total × length_factor, 0, 100)`, hence a score
within `[0, 100]`. -/
theorem scan_risk_score_clamped (cfg : RiskConfig) (cands : List (Rule × (Nat × Nat)))
    (input : List Char) (report : ScanReport)
    (h : scanModel cfg cands input = .ok report) :
    report.risk_score =
      rustClamp (report.score_breakdown.adjusted_total *
        report.score_breakdown.length_factor) 0 100 ∧
    0 ≤ report.risk_score ∧ report.risk_score ≤ 100 := by
  simp only [scanModel] at h
  split at h
  · exact absurd h (by simp)
  · rw [Except.ok.injEq] at h
    subst h
    refine ⟨rfl, ?_⟩
    have := rustClamp_bounds ((scoreFindings cfg (sortFindings (buildFindings input cands))
      (utf8Len input)).adjusted_total *
      (scoreFindings cfg (sortFindings (buildFindings input cands))
        (utf8Len input)).length_factor) 0 100 (by norm_num)
    exact this

/-- C1 witness: the empty scan produces the zero report within bounds. -/
theorem scan_risk_score_clamped_witness :
    scanModel defaultRiskConfig [] [] =
      .ok ⟨0, [], 0, .low, none, ⟨0, 0, 1/2, []⟩⟩ ∧
    (0 : ℚ) ≤ (ScanReport.mk 0 [] 0 .low none ⟨0, 0, 1/2, []⟩).risk_score ∧
    (ScanReport.mk 0 [] 0 .low none ⟨0, 0, 1/2, []⟩).risk_score ≤ 100 := by
  have h : scanModel defaultRiskConfig [] [] =
      .ok ⟨0, [], 0, .low, none, ⟨0, 0, 1/2, []⟩⟩ := by
    norm_num [scanModel, sortFindings, buildFindings, validateAll, scoreFindings,
      sortContribs, utf8Len, RiskConfig.lengthFactor, rustClamp, defaultRiskConfig,
      defaultThresholds, ScanReport.fromBreakdown, ScoreBreakdown.riskScore,
      RiskBand.fromScoreWithThresholds, List.insertionSort]
  exact ⟨h, (scan_risk_score_clamped defaultRiskConfig [] []
    ⟨0, [], 0, .low, none, ⟨0, 0, 1/2, []⟩⟩ h).2⟩

/-- C3: the length factor is `1` at baseline zero and otherwise the clamp of
`N / B` into `[min_length_factor, max_length_factor]`. -/
theorem length_factor_spec (cfg : RiskConfig) (n : Nat)
    (hLU : cfg.min_length_factor ≤ cfg.max_length_factor) :
    (cfg.baseline_chars = 0 → cfg.lengthFactor n = 1) ∧
    (cfg.baseline_chars ≠ 0 →
      cfg.lengthFactor n =
        rustClamp ((n : ℚ) / (cfg.baseline_chars : ℚ))
          cfg.min_length_factor cfg.max_length_factor ∧
      cfg.min_length_factor ≤ cfg.lengthFactor n ∧
      cfg.lengthFactor n ≤ cfg.max_length_factor) := by
  constructor
  · intro hb
    unfold RiskConfig.lengthFactor
    simp [hb]
  · intro hb
    unfold RiskConfig.lengthFactor
    rw [if_neg hb]
    exact ⟨rfl, rustClamp_bounds _ _ _ hLU⟩

/-- C3 witness: the default configuration at a 20-byte text. -/
theorem length_factor_spec_witness :
    (defaultRiskConfig.baseline_chars = 0 → defaultRiskConfig.lengthFactor 20 = 1) ∧
    (defaultRiskConfig.baseline_chars ≠ 0 →
      defaultRiskConfig.lengthFactor 20 =
        rustClamp ((20 : ℚ) / (defaultRiskConfig.baseline_chars : ℚ))
          defaultRiskConfig.min_length_factor defaultRiskConfig.max_length_factor ∧
      defaultRiskConfig.min_length_factor ≤ defaultRiskConfig.lengthFactor 20 ∧
      defaultRiskConfig.lengthFactor 20 ≤ defaultRiskConfig.max_length_factor) :=
  length_factor_spec defaultRiskConfig 20 (by norm_num [defaultRiskConfig])

/-- C4: with ordered thresholds the band is High iff `s ≥ high`, Medium iff
`medium ≤ s < high`, Low iff `s < medium`; and explicitly passing the default
thresholds agrees with the default mapping at every score. -/
theorem risk_band_mapping (s med hi : ℚ) (h0 : 0 ≤ med) (hmh : med ≤ hi)
    (h100 : hi ≤ 100) :
    (RiskBand.fromScoreWithThresholds s ⟨med, hi⟩ = .high ↔ hi ≤ s) ∧
    (RiskBand.fromScoreWithThresholds s ⟨med, hi⟩ = .medium ↔ med ≤ s ∧ s < hi) ∧
    (RiskBand.fromScoreWithThresholds s ⟨med, hi⟩ = .low ↔ s < med) ∧
    (∀ q : ℚ, RiskBand.fromScoreWithThresholds q defaultThresholds =
      RiskBand.fromScore q) := by
  refine ⟨?_, ?_, ?_, fun q => rfl⟩ <;>
    · unfold RiskBand.fromScoreWithThresholds
      split_ifs with h1 h2 <;> simp_all <;> linarith

/-- C4 witness: score 30 against the default 25/60 thresholds. -/
theorem risk_band_mapping_witness :
    (RiskBand.fromScoreWithThresholds 30 ⟨25, 60⟩ = .high ↔ (60 : ℚ) ≤ 30) ∧
    (RiskBand.fromScoreWithThresholds 30 ⟨25, 60⟩ = .medium ↔ (25 : ℚ) ≤ 30 ∧ (30 : ℚ) < 60) ∧
    (RiskBand.fromScoreWithThresholds 30 ⟨25, 60⟩ = .low ↔ (30 : ℚ) < 25) ∧
    (∀ q : ℚ, RiskBand.fromScoreWithThresholds q defaultThresholds =
      RiskBand.fromScore q) :=
  risk_band_mapping 30 25 60 (by norm_num) (by norm_num) (by norm_num)

/-- C9: `Finding::validate` accepts exactly the findings with
`span.0 ≤ span.1` and weight in `[0, 100]`; in particular a zero-width
finding with in-range weight validates, yet the emission rule in
`push_finding` drops its span — so the defensive re-validation is strictly
weaker than the emission rule. -/
theorem finding_validate_weaker (f : Finding) (hs : f.span.1 = f.span.2)
    (h0 : 0 ≤ f.weight) (h100 : f.weight ≤ 100) :
    Finding.validate f = .ok () ∧
    (∀ (acc : List Finding) (input : List Char) (r : Rule),
      pushFinding acc input r f.span = acc) ∧
    (∀ g : Finding, Finding.validate g = .ok () ↔
      (g.span.1 ≤ g.span.2 ∧ 0 ≤ g.weight ∧ g.weight ≤ 100)) := by
  have hchar : ∀ g : Finding, Finding.validate g = .ok () ↔
      (g.span.1 ≤ g.span.2 ∧ 0 ≤ g.weight ∧ g.weight ≤ 100) := by
    intro g
    unfold Finding.validate
    split_ifs with h1 h2 <;> simp_all
  refine ⟨(hchar f).mpr ⟨le_of_eq hs, h0, h100⟩, ?_, hchar⟩
  intro acc input r
  unfold pushFinding
  simp [le_of_eq hs.symm]

/-- C9 witness: a concrete zero-width finding. -/
theorem finding_validate_weaker_witness :
    Finding.validate ⟨"EMPTY", (3, 3), "", 5⟩ = .ok () ∧
    (∀ (acc : List Finding) (input : List Char) (r : Rule),
      pushFinding acc input r ((3, 3) : Nat × Nat) = acc) ∧
    (∀ g : Finding, Finding.validate g = .ok () ↔
      (g.span.1 ≤ g.span.2 ∧ 0 ≤ g.weight ∧ g.weight ≤ 100)) :=
  finding_validate_weaker ⟨"EMPTY", (3, 3), "", 5⟩ rfl (by norm_num) (by norm_num)

/-- C10: `ScanReport::new` clamps its score argument and always derives the
band from the default thresholds, while `ScanReport::from_breakdown` applies
the caller-provided thresholds — and the two can disagree on the same score. -/
theorem report_constructor_bands (rs : ℚ) (fs : List Finding) (n : Nat)
    (v : Option LlmVerdict) (bd : ScoreBreakdown) :
    (ScanReport.new rs fs n v bd).risk_score = rustClamp rs 0 100 ∧
    (ScanReport.new rs fs n v bd).risk_band =
      RiskBand.fromScoreWithThresholds (rustClamp rs 0 100) defaultThresholds ∧
    (∀ (t : RiskThresholds) (bd2 : ScoreBreakdown),
      (ScanReport.fromBreakdown fs n v bd2 t).risk_band =
        RiskBand.fromScoreWithThresholds bd2.riskScore t) ∧
    (∃ (s : ℚ) (t : RiskThresholds) (bd3 : ScoreBreakdown),
      bd3.riskScore = s ∧
      (ScanReport.fromBreakdown fs n v bd3 t).risk_band ≠
        (ScanReport.new s fs n v bd3).risk_band) := by
  refine ⟨rfl, rfl, fun t bd2 => rfl, 15, ⟨10, 90⟩, ⟨15, 15, 1, []⟩, ?_, ?_⟩
  · show rustClamp (15 * 1) 0 100 = 15
    norm_num [rustClamp]
  · show RiskBand.fromScoreWithThresholds (ScoreBreakdown.riskScore ⟨15, 15, 1, []⟩) ⟨10, 90⟩ ≠
      RiskBand.fromScore (rustClamp 15 0 100)
    norm_num [ScoreBreakdown.riskScore, rustClamp, RiskBand.fromScoreWithThresholds,
      RiskBand.fromScore, defaultThresholds]
    try decide

/-! Order theory of the finding comparator, supporting the sortedness claim. -/

theorem lt_then (y : Ordering) : Ordering.lt.then y = .lt := rfl

theorem gt_then (y : Ordering) : Ordering.gt.then y = .gt := rfl

theorem eq_then (y : Ordering) : Ordering.eq.then y = y := rfl

theorem then_swap (x y : Ordering) : (x.then y).swap = x.swap.then y.swap := by
  cases x <;> rfl

theorem then_gt_iff (x y : Ordering) :
    x.then y = .gt ↔ x = .gt ∨ (x = .eq ∧ y = .gt) := by
  cases x <;> simp [lt_then, gt_then, eq_then]

theorem then_eq_iff (x y : Ordering) :
    x.then y = .eq ↔ x = .eq ∧ y = .eq := by
  cases x <;> simp [lt_then, gt_then, eq_then]

theorem cmpQ_gt_iff {a b : ℚ} : cmpQ a b = .gt ↔ b < a := by
  unfold cmpQ
  split_ifs with h1 h2
  · exact iff_of_false (by decide) (by linarith)
  · exact iff_of_true rfl h2
  · exact iff_of_false (by decide) h2

theorem cmpQ_eq_iff {a b : ℚ} : cmpQ a b = .eq ↔ a = b := by
  unfold cmpQ
  split_ifs with h1 h2
  · exact iff_of_false (by decide) (by rintro rfl; exact lt_irrefl _ h1)
  · exact iff_of_false (by decide) (by rintro rfl; exact lt_irrefl _ h2)
  · exact iff_of_true rfl (le_antisymm (not_lt.1 h2) (not_lt.1 h1))

theorem cmpQ_swap (a b : ℚ) : (cmpQ a b).swap = cmpQ b a := by
  unfold cmpQ
  split_ifs <;> first | rfl | (exfalso; linarith)

theorem cmpNat_gt_iff {a b : Nat} : cmpNat a b = .gt ↔ b < a := by
  unfold cmpNat
  split_ifs with h1 h2
  · exact iff_of_false (by decide) (by omega)
  · exact iff_of_true rfl h2
  · exact iff_of_false (by decide) h2

theorem cmpNat_eq_iff {a b : Nat} : cmpNat a b = .eq ↔ a = b := by
  unfold cmpNat
  split_ifs with h1 h2
  · exact iff_of_false (by decide) (by omega)
  · exact iff_of_false (by decide) (by omega)
  · exact iff_of_true rfl (by omega)

theorem cmpNat_swap (a b : Nat) : (cmpNat a b).swap = cmpNat b a := by
  unfold cmpNat
  split_ifs <;> first | rfl | (exfalso; omega)

theorem cmpCharList_swap : ∀ (x y : List Char), (cmpCharList x y).swap = cmpCharList y x := by
  intro x
  induction x with
  | nil => intro y; cases y <;> rfl
  | cons a as ih =>
    intro y
    cases y with
    | nil => rfl
    | cons b bs =>
      simp only [cmpCharList]
      split_ifs with h1 h2
      · exact absurd (lt_trans h1 h2) (lt_irrefl a)
      · rfl
      · rfl
      · exact ih bs

theorem cmpCharList_eq_iff : ∀ (x y : List Char), cmpCharList x y = .eq ↔ x = y := by
  intro x
  induction x with
  | nil => intro y; cases y <;> simp [cmpCharList]
  | cons a as ih =>
    intro y
    cases y with
    | nil => simp [cmpCharList]
    | cons b bs =>
      simp only [cmpCharList]
      split_ifs with h1 h2
      · exact iff_of_false (by rw [lt_then]; decide)
          (by simp; rintro rfl; exact absurd h1 (lt_irrefl a))
      · exact iff_of_false (by rw [gt_then]; decide)
          (by simp; rintro rfl; exact absurd h2 (lt_irrefl a))
      · have hab : a = b := le_antisymm (not_lt.1 h2) (not_lt.1 h1)
        subst hab
        simp [eq_then, ih bs]

theorem cmpCharList_lt_trans :
    ∀ (x y z : List Char), cmpCharList x y = .lt → cmpCharList y z = .lt →
      cmpCharList x z = .lt := by
  intro x
  induction x with
  | nil =>
    intro y z hxy hyz
    cases y with
    | nil => exact hyz
    | cons b bs =>
      cases z with
      | nil => exact absurd hyz (by simp [cmpCharList])
      | cons c cs => rfl
  | cons a as ih =>
    intro y z hxy hyz
    cases y with
    | nil => exact absurd hxy (by simp [cmpCharList])
    | cons b bs =>
      cases z with
      | nil => exact absurd hyz (by simp [cmpCharList])
      | cons c cs =>
        simp only [cmpCharList] at hxy hyz ⊢
        rcases lt_trichotomy a b with h1 | h1 | h1
        · rcases lt_trichotomy b c with h2 | h2 | h2
          · rw [if_pos (lt_trans h1 h2), lt_then]
          · subst h2; rw [if_pos h1, lt_then]
          · rw [if_neg (lt_asymm h2), if_pos h2, gt_then] at hyz
            exact absurd hyz (by decide)
        · subst h1
          rw [if_neg (lt_irrefl a), if_neg (lt_irrefl a), eq_then] at hxy
          rcases lt_trichotomy a c with h2 | h2 | h2
          · rw [if_pos h2, lt_then]
          · subst h2
            rw [if_neg (lt_irrefl a), if_neg (lt_irrefl a), eq_then] at hyz ⊢
            exact ih bs cs hxy hyz
          · rw [if_neg (lt_asymm h2), if_pos h2, gt_then] at hyz
            exact absurd hyz (by decide)
        · rw [if_neg (lt_asymm h1), if_pos h1, gt_then] at hxy
          exact absurd hxy (by decide)

theorem cmpStr_eq_iff (s t : String) : cmpStr s t = .eq ↔ s = t := by
  unfold cmpStr
  rw [cmpCharList_eq_iff]
  constructor
  · intro h
    cases s
    cases t
    exact congrArg String.mk h
  · intro h
    rw [h]

theorem cmpStr_swap (s t : String) : (cmpStr s t).swap = cmpStr t s :=
  cmpCharList_swap s.data t.data

theorem cmpStr_gt_trans {s t u : String} (h1 : cmpStr s t = .gt) (h2 : cmpStr t u = .gt) :
    cmpStr s u = .gt := by
  have k1 : cmpStr t s = .lt := by
    have := cmpStr_swap s t
    rw [h1] at this
    exact this.symm
  have k2 : cmpStr u t = .lt := by
    have := cmpStr_swap t u
    rw [h2] at this
    exact this.symm
  have k3 : cmpStr u s = .lt := cmpCharList_lt_trans u.data t.data s.data k2 k1
  have := cmpStr_swap u s
  rw [k3] at this
  exact this.symm

theorem findingCmp_def (a b : Finding) :
    findingCmp a b = ((cmpQ b.weight a.weight).then (cmpNat a.span.1 b.span.1)).then
      (cmpStr a.rule_id b.rule_id) := rfl

theorem findingCmp_swap (a b : Finding) : (findingCmp a b).swap = findingCmp b a := by
  rw [findingCmp_def, findingCmp_def, then_swap, then_swap, cmpQ_swap, cmpNat_swap,
    cmpStr_swap]

theorem findingCmp_gt_iff (a b : Finding) :
    findingCmp a b = .gt ↔
      a.weight < b.weight ∨
      (b.weight = a.weight ∧ b.span.1 < a.span.1) ∨
      ((b.weight = a.weight ∧ a.span.1 = b.span.1) ∧ cmpStr a.rule_id b.rule_id = .gt) := by
  rw [findingCmp_def, then_gt_iff, then_gt_iff, then_eq_iff, cmpQ_gt_iff, cmpQ_eq_iff,
    cmpNat_gt_iff, cmpNat_eq_iff, or_assoc]

theorem findingCmp_eq_iff (a b : Finding) :
    findingCmp a b = .eq ↔
      b.weight = a.weight ∧ a.span.1 = b.span.1 ∧ a.rule_id = b.rule_id := by
  rw [findingCmp_def, then_eq_iff, then_eq_iff, cmpQ_eq_iff, cmpNat_eq_iff, cmpStr_eq_iff,
    and_assoc]

theorem findingCmp_gt_trans {a b c : Finding} (h1 : findingCmp a b = .gt)
    (h2 : findingCmp b c = .gt) : findingCmp a c = .gt := by
  rw [findingCmp_gt_iff] at h1 h2 ⊢
  rcases h1 with h1 | ⟨e1, h1⟩ | ⟨⟨e1, s1⟩, t1⟩ <;>
    rcases h2 with h2 | ⟨e2, h2⟩ | ⟨⟨e2, s2⟩, t2⟩
  · exact Or.inl (by linarith)
  · exact Or.inl (by linarith)
  · exact Or.inl (by linarith)
  · exact Or.inl (by linarith)
  · exact Or.inr (Or.inl ⟨by linarith, by omega⟩)
  · exact Or.inr (Or.inl ⟨by linarith, by omega⟩)
  · exact Or.inl (by linarith)
  · exact Or.inr (Or.inl ⟨by linarith, by omega⟩)
  · exact Or.inr (Or.inr ⟨⟨by linarith, by omega⟩, cmpStr_gt_trans t1 t2⟩)

theorem findingCmp_ne_gt_of_swap {a b : Finding} (h : findingCmp b a = .gt) :
    findingCmp a b ≠ .gt := by
  intro hc
  have hs := findingCmp_swap a b
  rw [hc] at hs
  exact absurd (hs.trans h) (by decide)

theorem findingLe_total : ∀ a b : Finding, findingLe a b ∨ findingLe b a := by
  intro a b
  unfold findingLe
  by_cases h : findingCmp a b = .gt
  · exact Or.inr (findingCmp_ne_gt_of_swap h)
  · exact Or.inl h

theorem findingLe_trans :
    ∀ a b c : Finding, findingLe a b → findingLe b c → findingLe a c := by
  intro a b c hab hbc
  unfold findingLe at hab hbc ⊢
  cases k1 : findingCmp a b with
  | gt => exact absurd k1 hab
  | lt =>
    have k1' : findingCmp b a = .gt := by
      have hs := findingCmp_swap a b
      rw [k1] at hs
      exact hs.symm
    cases k2 : findingCmp b c with
    | gt => exact absurd k2 hbc
    | lt =>
      have k2' : findingCmp c b = .gt := by
        have hs := findingCmp_swap b c
        rw [k2] at hs
        exact hs.symm
      exact findingCmp_ne_gt_of_swap (findingCmp_gt_trans k2' k1')
    | eq =>
      obtain ⟨e, s, i⟩ := (findingCmp_eq_iff b c).1 k2
      apply findingCmp_ne_gt_of_swap
      rw [findingCmp_gt_iff] at k1' ⊢
      rcases k1' with h | ⟨h1, h2⟩ | ⟨⟨h1, h2⟩, h3⟩
      · exact Or.inl (by linarith)
      · exact Or.inr (Or.inl ⟨by linarith, by omega⟩)
      · exact Or.inr (Or.inr ⟨⟨by linarith, by omega⟩, by rw [← i]; exact h3⟩)
  | eq =>
    obtain ⟨e, s, i⟩ := (findingCmp_eq_iff a b).1 k1
    cases k2 : findingCmp b c with
    | gt => exact absurd k2 hbc
    | lt =>
      have k2' : findingCmp c b = .gt := by
        have hs := findingCmp_swap b c
        rw [k2] at hs
        exact hs.symm
      apply findingCmp_ne_gt_of_swap
      rw [findingCmp_gt_iff] at k2' ⊢
      rcases k2' with h | ⟨h1, h2⟩ | ⟨⟨h1, h2⟩, h3⟩
      · exact Or.inl (by linarith)
      · exact Or.inr (Or.inl ⟨by linarith, by omega⟩)
      · exact Or.inr (Or.inr ⟨⟨by linarith, by omega⟩, by rw [← i] at h3; exact h3⟩)
    | eq =>
      obtain ⟨e2, s2, i2⟩ := (findingCmp_eq_iff b c).1 k2
      have hac : findingCmp a c = .eq :=
        (findingCmp_eq_iff a c).2 ⟨by linarith, by omega, i.trans i2⟩
      rw [hac]
      decide

instance : IsTotal Finding findingLe := ⟨findingLe_total⟩

instance : IsTrans Finding findingLe := ⟨findingLe_trans⟩

/-- C6: the findings of every report the engine produces are sorted by the
total order of the comparator (weight descending, then span start ascending,
then rule id ascending); and under the IEEE `partial_cmp` semantics two NaN
weights compare `Equal`, so the comparator degenerates to the span/rule-id
keys. -/
theorem scan_findings_sorted (cfg : RiskConfig) (cands : List (Rule × (Nat × Nat)))
    (input : List Char) (report : ScanReport)
    (h : scanModel cfg cands input = .ok report) :
    report.findings.Pairwise findingLe ∧
    (∀ a b : FindingW (Option ℚ), a.weight = none → b.weight = none →
      findingCmpW pcF32 a b =
        (cmpNat a.span.1 b.span.1).then (cmpStr a.rule_id b.rule_id)) := by
  constructor
  · simp only [scanModel] at h
    split at h
    · exact absurd h (by simp)
    · rw [Except.ok.injEq] at h
      subst h
      exact List.sorted_insertionSort findingLe _
  · intro a b ha hb
    show (((pcF32 b.weight a.weight).getD .eq).then (cmpNat a.span.1 b.span.1)).then
      (cmpStr a.rule_id b.rule_id) = _
    rw [ha, hb]
    rfl

/-- C6 witness: a two-finding scan sorted as `HIGH` before `LOW`. -/
theorem scan_findings_sorted_witness :
    ([⟨"HIGH", (0, 3), "run ", 80⟩, ⟨"LOW", (4, 8), " bash", 10⟩] :
      List Finding).Pairwise findingLe :=
  (scan_findings_sorted defaultRiskConfig
    [(⟨"LOW", "low weight keyword", .keyword, "data", 10, some 1⟩, (4, 8)),
     (⟨"HIGH", "high weight regex", .regex, "run", 80, some 1⟩, (0, 3))]
    "run bash".data
    ⟨45, [⟨"HIGH", (0, 3), "run ", 80⟩, ⟨"LOW", (4, 8), " bash", 10⟩], 8, .medium,
      none, ⟨90, 90, 1/2, [⟨"HIGH", 1, 80, 80⟩, ⟨"LOW", 1, 10, 10⟩]⟩⟩
    (by
      have hfs : sortFindings (buildFindings "run bash".data
          [(⟨"LOW", "low weight keyword", .keyword, "data", 10, some 1⟩, (4, 8)),
           (⟨"HIGH", "high weight regex", .regex, "run", 80, some 1⟩, (0, 3))]) =
          [⟨"HIGH", (0, 3), "run ", 80⟩, ⟨"LOW", (4, 8), " bash", 10⟩] := by decide
      have hva : validateAll [(⟨"HIGH", (0, 3), "run ", 80⟩ : Finding),
          ⟨"LOW", (4, 8), " bash", 10⟩] = .ok () := by decide
      have hsc : sortContribs [⟨"HIGH", 1, 80, 80⟩, ⟨"LOW", 1, 10, 10⟩] =
          [⟨"HIGH", 1, 80, 80⟩, ⟨"LOW", 1, 10, 10⟩] := by decide
      have hk1 : familyKey "HIGH" = "HIGH" := by decide
      have hk2 : familyKey "LOW" = "LOW" := by decide
      have hne : ¬(("HIGH" : String) = "LOW") := by decide
      have hl : utf8Len "run bash".data = 8 := by decide
      norm_num [scanModel, hfs, hva, hl, scoreFindings, scoreStep, updateFam, hk1,
        hk2, hne, hsc, RiskConfig.lengthFactor, rustClamp, ScoreBreakdown.riskScore,
        ScanReport.fromBreakdown, RiskBand.fromScoreWithThresholds, defaultRiskConfig,
        defaultThresholds])).1

/-- The fold of `push_finding` over the matcher candidates only ever appends
findings whose span is strictly increasing (`start < end`). -/
theorem pushFold_spans :
    ∀ (cands : List (Rule × (Nat × Nat))) (input : List Char) (acc : List Finding),
      (∀ f ∈ acc, f.span.1 < f.span.2) →
      ∀ f ∈ List.foldl (fun a rc => pushFinding a input rc.1 rc.2) acc cands,
        f.span.1 < f.span.2 := by
  intro cands
  induction cands with
  | nil => intro input acc hacc; simpa using hacc
  | cons rc rest ih =>
    intro input acc hacc
    simp only [List.foldl_cons]
    apply ih
    intro f hf
    unfold pushFinding at hf
    by_cases hz : rc.2.2 ≤ rc.2.1
    · rw [if_pos hz] at hf
      exact hacc f hf
    · rw [if_neg hz] at hf
      rcases List.mem_append.1 hf with hf | hf
      · exact hacc f hf
      · rcases List.mem_singleton.1 hf with rfl
        simpa using Nat.lt_of_not_le hz

/-- C7: every finding in a produced report has `span.0 < span.1`, and any
candidate whose span start is at or past its end is dropped by
`push_finding`. -/
theorem scan_zero_width_dropped (cfg : RiskConfig) (cands : List (Rule × (Nat × Nat)))
    (input : List Char) (report : ScanReport)
    (h : scanModel cfg cands input = .ok report) :
    (∀ f ∈ report.findings, f.span.1 < f.span.2) ∧
    (∀ (acc : List Finding) (r : Rule) (s : Nat × Nat), s.2 ≤ s.1 →
      pushFinding acc input r s = acc) := by
  constructor
  · simp only [scanModel] at h
    split at h
    · exact absurd h (by simp)
    · rw [Except.ok.injEq] at h
      subst h
      intro f hf
      have hmem : f ∈ buildFindings input cands :=
        (List.perm_insertionSort findingLe (buildFindings input cands)).mem_iff.1 hf
      exact pushFold_spans cands input [] (by simp) f hmem
  · intro acc r s hs
    unfold pushFinding
    rw [if_pos hs]

/-- C7 witness: a zero-width candidate at `(2, 2)` is dropped while the
`(0, 1)` candidate survives. -/
theorem scan_zero_width_dropped_witness :
    (∀ f ∈ [(⟨"OK", (0, 1), "ab", 7⟩ : Finding)], f.span.1 < f.span.2) ∧
    (∀ (acc : List Finding) (r : Rule) (s : Nat × Nat), s.2 ≤ s.1 →
      pushFinding acc "ab".data r s = acc) := by
  have h := scan_zero_width_dropped defaultRiskConfig
    [(⟨"EMPTY", "zero width", .regex, "x", 5, some 1⟩, (2, 2)),
     (⟨"OK", "ok", .keyword, "a", 7, some 1⟩, (0, 1))]
    "ab".data
    ⟨7/2, [⟨"OK", (0, 1), "ab", 7⟩], 2, .low, none, ⟨7, 7, 1/2, [⟨"OK", 1, 7, 7⟩]⟩⟩
    (by
      have hfs : sortFindings (buildFindings "ab".data
          [(⟨"EMPTY", "zero width", .regex, "x", 5, some 1⟩, (2, 2)),
           (⟨"OK", "ok", .keyword, "a", 7, some 1⟩, (0, 1))]) =
          [⟨"OK", (0, 1), "ab", 7⟩] := by decide
      have hva : validateAll [(⟨"OK", (0, 1), "ab", 7⟩ : Finding)] = .ok () := by decide
      have hsc : sortContribs [⟨"OK", 1, 7, 7⟩] = [⟨"OK", 1, 7, 7⟩] := by decide
      have hk : familyKey "OK" = "OK" := by decide
      have hl : utf8Len "ab".data = 2 := by decide
      norm_num [scanModel, hfs, hva, hl, scoreFindings, scoreStep, updateFam, hk, hsc,
        RiskConfig.lengthFactor, rustClamp, ScoreBreakdown.riskScore,
        ScanReport.fromBreakdown, RiskBand.fromScoreWithThresholds, defaultRiskConfig,
        defaultThresholds])
  exact h

/-! The scoring fold: family bucketing invariants. -/

/-- A key absent from the family map is appended as a fresh entry with one
occurrence and an undampened contribution. -/
theorem updateFam_notfound (damp w : ℚ) (key : String) :
    ∀ (fams : List FamilyContribution), key ∉ fams.map (fun c => c.family) →
      updateFam damp w key fams = (fams ++ [⟨key, 1, w, w⟩], w) := by
  intro fams
  induction fams with
  | nil => intro _; rfl
  | cons c cs ih =>
    intro hmem
    have hc : ¬(c.family = key) := by
      intro hc
      exact hmem (by simp [hc])
    have hcs : key ∉ cs.map (fun c => c.family) := by
      intro h
      exact hmem (by simp [h])
    unfold updateFam
    rw [if_neg hc, ih hcs]
    rfl

/-- Updating an existing entry dampens the contribution and bumps the entry
in place, provided the key does not occur earlier in the map. -/
theorem updateFam_found (damp w : ℚ) (key : String) :
    ∀ (pre post : List FamilyContribution) (c : FamilyContribution),
      c.family = key → key ∉ pre.map (fun c => c.family) →
      updateFam damp w key (pre ++ c :: post) =
        (pre ++ ⟨key, c.occurrences + 1, c.raw_weight + w,
          c.adjusted_weight + w * (if 1 < c.occurrences + 1 then damp else 1)⟩ :: post,
         w * (if 1 < c.occurrences + 1 then damp else 1)) := by
  intro pre
  induction pre with
  | nil =>
    intro post c hc _
    simp only [List.nil_append]
    unfold updateFam
    rw [if_pos hc]
    simp [hc]
  | cons p ps ih =>
    intro post c hc hpre
    have hp : ¬(p.family = key) := by
      intro h
      exact hpre (by simp [h])
    have hps : key ∉ ps.map (fun c => c.family) := by
      intro h
      exact hpre (by simp [h])
    simp only [List.cons_append]
    unfold updateFam
    rw [if_neg hp, ih post c hc hps]

/-- Invariant of the scoring loop: the running raw total sums the processed
weights; family keys are unique in the map; every processed finding's family
is present; and each entry holds the occurrence count, raw sum, and
first-undampened/rest-dampened adjusted sum of its family's weights. -/
theorem scoreFold_inv (damp : ℚ) (l : List Finding) :
    (List.foldl (scoreStep damp) ⟨[], 0, 0⟩ l).raw = (l.map (fun f => f.weight)).sum ∧
    ((List.foldl (scoreStep damp) ⟨[], 0, 0⟩ l).fams.map (fun c => c.family)).Nodup ∧
    (∀ f ∈ l, familyKey f.rule_id ∈
      (List.foldl (scoreStep damp) ⟨[], 0, 0⟩ l).fams.map (fun c => c.family)) ∧
    (∀ c ∈ (List.foldl (scoreStep damp) ⟨[], 0, 0⟩ l).fams, ∃ w0 rest,
      (l.filter (fun f => familyKey f.rule_id == c.family)).map (fun f => f.weight) =
        w0 :: rest ∧
      c.occurrences = rest.length + 1 ∧
      c.raw_weight = w0 + rest.sum ∧
      c.adjusted_weight = w0 + damp * rest.sum) := by
  induction l using List.reverseRecOn with
  | nil => exact ⟨rfl, by simp, by simp, by simp⟩
  | append_singleton l x ih =>
    obtain ⟨ihraw, ihnodup, ihcomp, ihfam⟩ := ih
    have hstep : List.foldl (scoreStep damp) ⟨[], 0, 0⟩ (l ++ [x]) =
        scoreStep damp (List.foldl (scoreStep damp) ⟨[], 0, 0⟩ l) x := by
      rw [List.foldl_append]
      rfl
    set A := List.foldl (scoreStep damp) ⟨[], 0, 0⟩ l with hA
    set key := familyKey x.rule_id with hkey
    have hraw2 : (List.foldl (scoreStep damp) ⟨[], 0, 0⟩ (l ++ [x])).raw =
        A.raw + x.weight := by
      rw [hstep]
      rfl
    have hfilter_keep : ∀ (fam : String), fam ≠ key →
        (l ++ [x]).filter (fun f => familyKey f.rule_id == fam) =
        l.filter (fun f => familyKey f.rule_id == fam) := by
      intro fam hne
      rw [List.filter_append]
      have hp : (familyKey x.rule_id == fam) = false :=
        beq_eq_false_iff_ne.2 (fun h => hne (h ▸ rfl))
      simp [List.filter_cons, hp]
    have hfilter_key : (l ++ [x]).filter (fun f => familyKey f.rule_id == key) =
        l.filter (fun f => familyKey f.rule_id == key) ++ [x] := by
      rw [List.filter_append]
      have hp : (familyKey x.rule_id == key) = true := by simp [hkey]
      simp [List.filter_cons, hp]
    by_cases hk : key ∈ A.fams.map (fun c => c.family)
    · -- the family already has an entry
      obtain ⟨c, hcmem, hcfam⟩ := List.mem_map.1 hk
      obtain ⟨pre, post, hsplit⟩ := List.append_of_mem hcmem
      rw [hsplit] at ihnodup
      simp only [List.map_append, List.map_cons] at ihnodup
      rw [List.nodup_append] at ihnodup
      obtain ⟨n1, n2, disj⟩ := ihnodup
      rw [List.nodup_cons] at n2
      have hpost : key ∉ post.map (fun c => c.family) := hcfam ▸ n2.1
      have hpre : key ∉ pre.map (fun c => c.family) := fun hmem =>
        disj hmem (by simp [hcfam])
      have hmult : (if 1 < c.occurrences + 1 then damp else 1) = damp := by
        obtain ⟨w0, rest, _, hocc, _, _⟩ := ihfam c hcmem
        rw [if_pos (by omega)]
      have hupd := updateFam_found damp x.weight key pre post c hcfam hpre
      rw [hmult] at hupd
      have hfams : (List.foldl (scoreStep damp) ⟨[], 0, 0⟩ (l ++ [x])).fams =
          pre ++ ⟨key, c.occurrences + 1, c.raw_weight + x.weight,
            c.adjusted_weight + x.weight * damp⟩ :: post := by
        rw [hstep]
        show (updateFam damp x.weight key A.fams).1 = _
        rw [hsplit, hupd]
      refine ⟨?_, ?_, ?_, ?_⟩
      · rw [hraw2, ihraw]
        simp
      · rw [hfams]
        simp only [List.map_append, List.map_cons]
        rw [List.nodup_append, List.nodup_cons]
        refine ⟨n1, ⟨hpost, n2.2⟩, ?_⟩
        intro a ha hb
        rcases List.mem_cons.1 hb with rfl | hb
        · exact hpre ha
        · exact disj ha (List.mem_cons_of_mem _ hb)
      · intro f hf
        rw [hfams]
        simp only [List.map_append, List.map_cons, List.mem_append, List.mem_cons]
        rcases List.mem_append.1 hf with hf | hf
        · have hin := ihcomp f hf
          rw [hsplit] at hin
          simp only [List.map_append, List.map_cons, List.mem_append, List.mem_cons] at hin
          rcases hin with hin | hin | hin
          · exact Or.inl hin
          · exact Or.inr (Or.inl (hin.trans hcfam))
          · exact Or.inr (Or.inr hin)
        · rcases List.mem_singleton.1 hf with rfl
          exact Or.inr (Or.inl rfl)
      · intro d hd
        rcases List.mem_append.1 (hfams ▸ hd) with hd' | hd'
        · -- an earlier family, untouched
          have hdA : d ∈ A.fams := by
            rw [hsplit]
            exact List.mem_append_left _ hd'
          have hdne : d.family ≠ key := by
            intro h
            exact hpre (h ▸ List.mem_map.2 ⟨d, hd', rfl⟩)
          obtain ⟨w0, rest, hws, hocc, hraww, hadj⟩ := ihfam d hdA
          exact ⟨w0, rest, by rw [hfilter_keep d.family hdne]; exact hws, hocc, hraww, hadj⟩
        · rcases List.mem_cons.1 hd' with rfl | hd'
          · -- the updated entry
            obtain ⟨w0, rest, hws, hocc, hraww, hadj⟩ := ihfam c hcmem
            rw [hcfam] at hws
            refine ⟨w0, rest ++ [x.weight], ?_, ?_, ?_, ?_⟩
            · show ((l ++ [x]).filter (fun f => familyKey f.rule_id == key)).map _ = _
              rw [hfilter_key, List.map_append, hws]
              simp
            · show c.occurrences + 1 = _
              simp [hocc]
            · show c.raw_weight + x.weight = _
              rw [hraww]
              simp
              ring
            · show c.adjusted_weight + x.weight * damp = _
              rw [hadj]
              simp
              ring
          · -- a later family, untouched
            have hdA : d ∈ A.fams := by
              rw [hsplit]
              exact List.mem_append_right _ (List.mem_cons_of_mem _ hd')
            have hdne : d.family ≠ key := by
              intro h
              exact hpost (h ▸ List.mem_map.2 ⟨d, hd', rfl⟩)
            obtain ⟨w0, rest, hws, hocc, hraww, hadj⟩ := ihfam d hdA
            exact ⟨w0, rest, by rw [hfilter_keep d.family hdne]; exact hws, hocc, hraww,
              hadj⟩
    · -- a fresh family
      have hupd := updateFam_notfound damp x.weight key A.fams hk
      have hfams : (List.foldl (scoreStep damp) ⟨[], 0, 0⟩ (l ++ [x])).fams =
          A.fams ++ [⟨key, 1, x.weight, x.weight⟩] := by
        rw [hstep]
        show (updateFam damp x.weight key A.fams).1 = _
        rw [hupd]
      refine ⟨?_, ?_, ?_, ?_⟩
      · rw [hraw2, ihraw]
        simp
      · rw [hfams]
        simp only [List.map_append, List.map_cons, List.map_nil]
        rw [List.nodup_append]
        refine ⟨ihnodup, by simp, ?_⟩
        intro a ha hb
        rcases List.mem_singleton.1 hb with rfl
        exact hk ha
      · intro f hf
        rw [hfams]
        simp only [List.map_append, List.map_cons, List.map_nil, List.mem_append,
          List.mem_cons]
        rcases List.mem_append.1 hf with hf | hf
        · exact Or.inl (ihcomp f hf)
        · rcases List.mem_singleton.1 hf with rfl
          exact Or.inr (Or.inl rfl)
      · intro d hd
        rcases List.mem_append.1 (hfams ▸ hd) with hd' | hd'
        · have hdne : d.family ≠ key := by
            intro h
            exact hk (h ▸ List.mem_map.2 ⟨d, hd', rfl⟩)
          obtain ⟨w0, rest, hws, hocc, hraww, hadj⟩ := ihfam d hd'
          exact ⟨w0, rest, by rw [hfilter_keep d.family hdne]; exact hws, hocc, hraww,
            hadj⟩
        · rcases List.mem_singleton.1 hd' with rfl
          have hnil : l.filter (fun f => familyKey f.rule_id == key) = [] := by
            rw [List.filter_eq_nil_iff]
            intro f hf hb
            rw [beq_iff_eq] at hb
            exact hk (hb ▸ ihcomp f hf)
          refine ⟨x.weight, [], ?_, rfl, by simp, by simp⟩
          show ((l ++ [x]).filter (fun f => familyKey f.rule_id == key)).map _ = _
          rw [hfilter_key, hnil]
          simp

/-- C2: the engine groups scored findings by family key; within a family the
first finding keeps its full weight and later ones are dampened, raw weights
sum undampened, `raw_total` sums every finding's weight, and with a dampening
factor at most one each family's adjusted weight never exceeds its raw
weight. -/
theorem score_family_dampening (cfg : RiskConfig) (findings : List Finding)
    (text_len : Nat) (hw : ∀ f ∈ findings, 0 ≤ f.weight)
    (hd : cfg.family_dampening ≤ 1) :
    (scoreFindings cfg findings text_len).raw_total =
      (findings.map (fun f => f.weight)).sum ∧
    (∀ c ∈ (scoreFindings cfg findings text_len).family_contributions, ∃ w0 rest,
      (findings.filter (fun f => familyKey f.rule_id == c.family)).map
        (fun f => f.weight) = w0 :: rest ∧
      c.occurrences = rest.length + 1 ∧
      c.raw_weight = w0 + rest.sum ∧
      c.adjusted_weight = w0 + cfg.family_dampening * rest.sum ∧
      c.adjusted_weight ≤ c.raw_weight) := by
  obtain ⟨hraw, _, _, hfam⟩ := scoreFold_inv cfg.family_dampening findings
  constructor
  · exact hraw
  · intro c hc
    have hc0 : c ∈ sortContribs
        (List.foldl (scoreStep cfg.family_dampening) ⟨[], 0, 0⟩ findings).fams := hc
    have hc' : c ∈ (List.foldl (scoreStep cfg.family_dampening) ⟨[], 0, 0⟩
        findings).fams := by
      unfold sortContribs at hc0
      exact (List.perm_insertionSort contribKeyLe _).mem_iff.1
        ((List.perm_insertionSort contribLe _).mem_iff.1 hc0)
    obtain ⟨w0, rest, hws, hocc, hraww, hadj⟩ := hfam c hc'
    have hall : ∀ q ∈ w0 :: rest, 0 ≤ q := by
      intro q hq
      rw [← hws] at hq
      obtain ⟨f, hf, rfl⟩ := List.mem_map.1 hq
      exact hw f (List.mem_of_mem_filter hf)
    have hsum : 0 ≤ rest.sum :=
      List.sum_nonneg (fun r hr => hall r (List.mem_cons_of_mem _ hr))
    refine ⟨w0, rest, hws, hocc, hraww, hadj, ?_⟩
    rw [hraww, hadj]
    have := mul_le_of_le_one_left hsum hd
    linarith

/-- C2 witness: three `SECRET_LEAK` findings of weight 40 under the default
dampening of one half. -/
theorem score_family_dampening_witness :
    (scoreFindings defaultRiskConfig
      [⟨"SECRET_LEAK", (0, 6), "secret", 40⟩, ⟨"SECRET_LEAK", (7, 13), "secret", 40⟩,
       ⟨"SECRET_LEAK", (14, 20), "secret", 40⟩] 20).raw_total =
      (([⟨"SECRET_LEAK", (0, 6), "secret", 40⟩, ⟨"SECRET_LEAK", (7, 13), "secret", 40⟩,
        ⟨"SECRET_LEAK", (14, 20), "secret", 40⟩] : List Finding).map
          (fun f => f.weight)).sum ∧
    (∀ c ∈ (scoreFindings defaultRiskConfig
      [⟨"SECRET_LEAK", (0, 6), "secret", 40⟩, ⟨"SECRET_LEAK", (7, 13), "secret", 40⟩,
       ⟨"SECRET_LEAK", (14, 20), "secret", 40⟩] 20).family_contributions, ∃ w0 rest,
      (([⟨"SECRET_LEAK", (0, 6), "secret", 40⟩, ⟨"SECRET_LEAK", (7, 13), "secret", 40⟩,
        ⟨"SECRET_LEAK", (14, 20), "secret", 40⟩] : List Finding).filter
          (fun f => familyKey f.rule_id == c.family)).map (fun f => f.weight) =
            w0 :: rest ∧
      c.occurrences = rest.length + 1 ∧
      c.raw_weight = w0 + rest.sum ∧
      c.adjusted_weight = w0 + defaultRiskConfig.family_dampening * rest.sum ∧
      c.adjusted_weight ≤ c.raw_weight) :=
  score_family_dampening defaultRiskConfig
    [⟨"SECRET_LEAK", (0, 6), "secret", 40⟩, ⟨"SECRET_LEAK", (7, 13), "secret", 40⟩,
     ⟨"SECRET_LEAK", (14, 20), "secret", 40⟩] 20
    (by decide) (by norm_num [defaultRiskConfig])

/-! The keyword loader's field splitting. -/

/-- Splitting always yields at least one part. -/
theorem splitOnChar_length_pos (sep : Char) :
    ∀ (l : List Char), 0 < (splitOnChar sep l).length := by
  intro l
  induction l with
  | nil => simp [splitOnChar]
  | cons c cs ih =>
    unfold splitOnChar
    split_ifs with h
    · simp
    · rcases hr : splitOnChar sep cs with _ | ⟨h1, t1⟩
      · simp
      · simp

/-- C5 counterexample: a line with five `|`-separated fields does not fail;
`splitn(4, ..)` folds the surplus into the fourth field, so the rule loads
with pattern `p|q`. -/
theorem keyword_field_count_counterexample :
    (splitOnChar '|' "A|10|d|p|q".data).length = 5 ∧
    loadKeywords "A|10|d|p|q" = .ok [⟨"A", "d", .keyword, "p|q", 10, none⟩] :=
  ⟨by decide, by decide⟩

/-- C5 (amended): the loader's split produces between one and four fields,
and whenever the loop reaches a non-blank, non-comment line with fewer than
four fields, loading stops with the parse error carrying that line's 1-based
number. -/
theorem keyword_line_fields (t : List Char) :
    (1 ≤ (splitn4 t).length ∧ (splitn4 t).length ≤ 4) ∧
    (∀ (i : Nat) (seen : List String) (acc : List Rule) (line : List Char)
        (rest : List (List Char)),
      ¬(trimChars line = []) → ¬((trimChars line).head? = some '#') →
      ((splitn4 (trimChars line)).map trimChars).length ≠ 4 →
      kwGo i seen acc (line :: rest) = .error (.formatError (i + 1))) := by
  constructor
  · simp only [splitn4]
    have hpos := splitOnChar_length_pos '|' t
    split_ifs with h
    · exact ⟨hpos, h⟩
    · simp only [List.length_append, List.length_take, List.length_cons,
        List.length_nil]
      omega
  · intro i seen acc line rest h1 h2 h3
    show (let t := trimChars line
      if t = [] ∨ t.head? = some '#' then kwGo (i + 1) seen acc rest
      else
        let parts := (splitn4 t).map trimChars
        if parts.length ≠ 4 then .error (.formatError (i + 1))
        else
          let id : String := ⟨parts.getD 0 []⟩
          if id ∈ seen then .error (.duplicateId id)
          else
            match parseWeight (parts.getD 1 []) with
            | none => .error (.badWeight (i + 1) ⟨parts.getD 1 []⟩ id)
            | some w =>
              match mkRule id ⟨parts.getD 2 []⟩ .keyword ⟨parts.getD 3 []⟩ w none with
              | .error e => .error (.ruleInvalid e)
              | .ok r => kwGo (i + 1) (seen ++ [id]) (acc ++ [r]) rest) = _
    rw [if_neg (not_or.2 ⟨h1, h2⟩), if_pos h3]

/-- C5 amended-claim witness: a three-field line fails at line 1. -/
theorem keyword_line_fields_witness :
    (1 ≤ (splitn4 "A|10|d".data).length ∧ (splitn4 "A|10|d".data).length ≤ 4) ∧
    kwGo 0 [] [] ["A|10|d".data] = .error (.formatError 1) :=
  ⟨(keyword_line_fields "A|10|d".data).1,
   (keyword_line_fields "A|10|d".data).2 0 [] [] "A|10|d".data []
     (by decide) (by decide) (by decide)⟩

/-! Character-boundary walking for excerpt extraction. -/

/-- Offset zero is always a boundary. -/
theorem isBoundary_zero (l : List Char) : isBoundary l 0 = true := by
  unfold isBoundary
  simp

/-- The total byte length is always a boundary. -/
theorem isBoundary_len : ∀ (l : List Char), isBoundary l (utf8Len l) = true := by
  intro l
  induction l with
  | nil => simp [utf8Len, isBoundary_zero]
  | cons c cs ih =>
    have hpos := Char.utf8Size_pos c
    have hlen : utf8Len (c :: cs) = c.utf8Size + utf8Len cs := by
      simp [utf8Len]
    rw [hlen]
    unfold isBoundary
    rw [if_neg (show ¬(c.utf8Size + utf8Len cs = 0) by omega)]
    show (if c.utf8Size + utf8Len cs < c.utf8Size then false
      else isBoundary cs (c.utf8Size + utf8Len cs - c.utf8Size)) = true
    rw [if_neg (show ¬(c.utf8Size + utf8Len cs < c.utf8Size) by omega),
      show c.utf8Size + utf8Len cs - c.utf8Size = utf8Len cs from by omega]
    exact ih

/-- The backward walk never moves forward. -/
theorem backWalk_le (t : List Char) : ∀ n, backWalk t n ≤ n := by
  intro n
  induction n with
  | zero => exact Nat.le_refl 0
  | succ n ih =>
    unfold backWalk
    split_ifs with h
    · exact Nat.le_refl _
    · exact Nat.le_trans ih (Nat.le_succ n)

/-- The backward walk stops on a boundary. -/
theorem backWalk_boundary (t : List Char) : ∀ n, isBoundary t (backWalk t n) = true := by
  intro n
  induction n with
  | zero => exact isBoundary_zero t
  | succ n ih =>
    unfold backWalk
    split_ifs with h
    · exact h
    · exact ih

/-- No boundary is skipped by the backward walk. -/
theorem backWalk_max (t : List Char) :
    ∀ n j, backWalk t n < j → j ≤ n → isBoundary t j = false := by
  intro n
  induction n with
  | zero => intro j h1 h2; omega
  | succ n ih =>
    intro j h1 h2
    by_cases h : isBoundary t (n + 1)
    · simp only [backWalk, if_pos h] at h1
      omega
    · simp only [backWalk, if_neg h] at h1
      rcases Nat.lt_or_ge j (n + 1) with hj | hj
      · exact ih j h1 (by omega)
      · have : j = n + 1 := by omega
        rw [this]
        simpa using h

/-- The forward walk never moves backward. -/
theorem fwdWalk_ge (t : List Char) : ∀ fuel c, c ≤ fwdWalk t fuel c := by
  intro fuel
  induction fuel with
  | zero => intro c; exact Nat.le_refl c
  | succ fuel ih =>
    intro c
    unfold fwdWalk
    split_ifs with h
    · exact Nat.le_refl c
    · exact Nat.le_trans (Nat.le_succ c) (ih (c + 1))

/-- The forward walk is bounded by its fuel. -/
theorem fwdWalk_le (t : List Char) : ∀ fuel c, fwdWalk t fuel c ≤ c + fuel := by
  intro fuel
  induction fuel with
  | zero => intro c; exact Nat.le_refl c
  | succ fuel ih =>
    intro c
    unfold fwdWalk
    split_ifs with h
    · omega
    · have := ih (c + 1)
      omega

/-- The forward walk stops on a boundary provided one lies within fuel. -/
theorem fwdWalk_boundary (t : List Char) :
    ∀ fuel c, isBoundary t (c + fuel) = true → isBoundary t (fwdWalk t fuel c) = true := by
  intro fuel
  induction fuel with
  | zero => intro c h; simpa using h
  | succ fuel ih =>
    intro c h
    unfold fwdWalk
    split_ifs with hb
    · exact hb
    · exact ih (c + 1) (by rw [show c + 1 + fuel = c + (fuel + 1) from by omega]; exact h)

/-- No boundary is skipped by the forward walk. -/
theorem fwdWalk_min (t : List Char) :
    ∀ fuel c j, c ≤ j → j < fwdWalk t fuel c → isBoundary t j = false := by
  intro fuel
  induction fuel with
  | zero => intro c j h1 h2; simp only [fwdWalk] at h2; omega
  | succ fuel ih =>
    intro c j h1 h2
    by_cases hb : isBoundary t c
    · simp only [fwdWalk, if_pos hb] at h2
      omega
    · simp only [fwdWalk, if_neg hb] at h2
      rcases Nat.lt_or_ge j (c + 1) with hj | hj
      · have : j = c := by omega
        rw [this]
        simpa using hb
      · exact ih (c + 1) j hj h2

/-- `saturating_char_boundary` stops on a boundary. -/
theorem satBack_boundary (t : List Char) (idx : Nat) :
    isBoundary t (satBoundaryBack t idx) = true := by
  unfold satBoundaryBack
  split_ifs with h1 h2
  · exact isBoundary_len t
  · exact h2
  · exact backWalk_boundary t idx

/-- `saturating_char_boundary` never moves forward (below the text length). -/
theorem satBack_le (t : List Char) (idx : Nat) (h : idx ≤ utf8Len t) :
    satBoundaryBack t idx ≤ idx := by
  unfold satBoundaryBack
  split_ifs with h1 h2
  · omega
  · exact Nat.le_refl idx
  · exact backWalk_le t idx

/-- `saturating_char_boundary` lands on the nearest boundary at or below the
requested offset. -/
theorem satBack_max (t : List Char) (idx : Nat) (h : idx ≤ utf8Len t) :
    ∀ j, satBoundaryBack t idx < j → j ≤ idx → isBoundary t j = false := by
  unfold satBoundaryBack
  split_ifs with h1 h2
  · intro j hj1 hj2; omega
  · intro j hj1 hj2; omega
  · exact backWalk_max t idx

/-- The forward variant stops on a boundary. -/
theorem satFwd_boundary (t : List Char) (idx : Nat) :
    isBoundary t (satBoundaryFwd t idx) = true := by
  unfold satBoundaryFwd
  split_ifs with h1 h2
  · exact isBoundary_len t
  · exact h2
  · exact fwdWalk_boundary t (utf8Len t - idx) idx
      (by rw [show idx + (utf8Len t - idx) = utf8Len t from by omega]; exact isBoundary_len t)

/-- The forward variant saturates at the text length. -/
theorem satFwd_le (t : List Char) (idx : Nat) : satBoundaryFwd t idx ≤ utf8Len t := by
  unfold satBoundaryFwd
  split_ifs with h1 h2
  · exact Nat.le_refl _
  · omega
  · have := fwdWalk_le t (utf8Len t - idx) idx
    omega

/-- Saturation: past the end, the forward variant returns the text length. -/
theorem satFwd_sat (t : List Char) (idx : Nat) (h : utf8Len t ≤ idx) :
    satBoundaryFwd t idx = utf8Len t := by
  unfold satBoundaryFwd
  rw [if_pos h]

/-- Below the end, the forward variant never moves backward. -/
theorem satFwd_ge (t : List Char) (idx : Nat) (h : idx < utf8Len t) :
    idx ≤ satBoundaryFwd t idx := by
  unfold satBoundaryFwd
  rw [if_neg (by omega)]
  split_ifs with h2
  · exact Nat.le_refl idx
  · exact fwdWalk_ge t (utf8Len t - idx) idx

/-- The forward variant lands on the nearest boundary at or above the
requested offset. -/
theorem satFwd_min (t : List Char) (idx : Nat) (h : idx < utf8Len t) :
    ∀ j, idx ≤ j → j < satBoundaryFwd t idx → isBoundary t j = false := by
  unfold satBoundaryFwd
  rw [if_neg (by omega)]
  split_ifs with h2
  · intro j hj1 hj2; omega
  · exact fwdWalk_min t (utf8Len t - idx) idx

/-- C8: for every text, span within bounds, and window, the excerpt is
obtained by slicing from the nearest boundary at or below `s − w` (saturated
at zero by the truncated subtraction) to the nearest boundary at or above
`e + w` (saturated at the text length) and keeping the first 240 characters;
the two cut points are genuine character boundaries with `start ≤ end` (so
the Rust slice cannot panic), a missing window defaults to 64, and the
excerpt never exceeds 240 characters. -/
theorem excerpt_extraction_safe (t : List Char) (s e w : Nat) (hse : s ≤ e)
    (he : e ≤ utf8Len t) :
    isBoundary t (satBoundaryBack t (s - w)) = true ∧
    isBoundary t (satBoundaryFwd t (e + w)) = true ∧
    satBoundaryBack t (s - w) ≤ s - w ∧
    (∀ j, satBoundaryBack t (s - w) < j → j ≤ s - w → isBoundary t j = false) ∧
    (utf8Len t ≤ e + w → satBoundaryFwd t (e + w) = utf8Len t) ∧
    (e + w < utf8Len t → e + w ≤ satBoundaryFwd t (e + w) ∧
      ∀ j, e + w ≤ j → j < satBoundaryFwd t (e + w) → isBoundary t j = false) ∧
    satBoundaryBack t (s - w) ≤ satBoundaryFwd t (e + w) ∧
    extractExcerpt t (s, e) (some w) =
      (byteSlice t (satBoundaryBack t (s - w)) (satBoundaryFwd t (e + w))).take
        maxExcerptChars ∧
    (extractExcerpt t (s, e) (some w)).length ≤ 240 ∧
    extractExcerpt t (s, e) none = extractExcerpt t (s, e) (some defaultContextWindow) := by
  have hsw : s - w ≤ utf8Len t := by omega
  have hstle : satBoundaryBack t (s - w) ≤ s - w := satBack_le t (s - w) hsw
  refine ⟨satBack_boundary t (s - w), satFwd_boundary t (e + w), hstle,
    satBack_max t (s - w) hsw, satFwd_sat t (e + w), ?_, ?_, rfl, ?_, rfl⟩
  · intro hlt
    exact ⟨satFwd_ge t (e + w) hlt, satFwd_min t (e + w) hlt⟩
  · rcases Nat.lt_or_ge (e + w) (utf8Len t) with hlt | hge
    · have := satFwd_ge t (e + w) hlt
      omega
    · rw [satFwd_sat t (e + w) hge]
      omega
  · show ((byteSlice t _ _).take maxExcerptChars).length ≤ 240
    rw [List.length_take]
    exact Nat.le_trans (Nat.min_le_left _ _) (Nat.le_refl 240)

/-- C8 witness: a span next to the multi-byte character in `"héllo"`. -/
theorem excerpt_extraction_safe_witness :
    isBoundary "héllo".data (satBoundaryBack "héllo".data (0 - 1)) = true ∧
    isBoundary "héllo".data (satBoundaryFwd "héllo".data (3 + 1)) = true ∧
    satBoundaryBack "héllo".data (0 - 1) ≤ 0 - 1 ∧
    (∀ j, satBoundaryBack "héllo".data (0 - 1) < j → j ≤ 0 - 1 →
      isBoundary "héllo".data j = false) ∧
    (utf8Len "héllo".data ≤ 3 + 1 → satBoundaryFwd "héllo".data (3 + 1) =
      utf8Len "héllo".data) ∧
    (3 + 1 < utf8Len "héllo".data → 3 + 1 ≤ satBoundaryFwd "héllo".data (3 + 1) ∧
      ∀ j, 3 + 1 ≤ j → j < satBoundaryFwd "héllo".data (3 + 1) →
        isBoundary "héllo".data j = false) ∧
    satBoundaryBack "héllo".data (0 - 1) ≤ satBoundaryFwd "héllo".data (3 + 1) ∧
    extractExcerpt "héllo".data (0, 3) (some 1) =
      (byteSlice "héllo".data (satBoundaryBack "héllo".data (0 - 1))
        (satBoundaryFwd "héllo".data (3 + 1))).take maxExcerptChars ∧
    (extractExcerpt "héllo".data (0, 3) (some 1)).length ≤ 240 ∧
    extractExcerpt "héllo".data (0, 3) none =
      extractExcerpt "héllo".data (0, 3) (some defaultContextWindow) :=
  excerpt_extraction_safe "héllo".data 0 3 1 (by decide) (by decide)

end LlmGuard
